import Mathlib

/-!
Verification development for the EEG band-power / risk-screening pipeline
(`src/app.py`).  The numerical core is embedded shallowly over `ℚ`:
floating-point values of the source are modelled as exact rationals.

Embedded functions (names follow the source):
* `BANDS`               — the fixed band table (module-level constant).
* `bandpowers_from_raw` — Welch-PSD band integration (`bandpowers_from_raw`);
  the external library routine `mne.time_frequency.psd_welch` is not
  repository code and is abstracted as a function parameter of type
  `WelchFn`, applied exactly with the arguments the source passes.
* `risk_from_ratios`    — ratio computation and heuristic flags.
* Score fusion (`fuse_composite`, `tier_label`) is modelled from the
  specification, since no fusion engine exists in `src/`.
-/

namespace EegApp

/-- The fixed band table, from the module-level constant `BANDS` in
`src/app.py` (lines 33–39): name, low edge, high edge in Hz. -/
def BANDS : List (String × ℚ × ℚ) :=
  [("Delta (0.5–4 Hz)", (1/2, 4)),
   ("Theta (4–8 Hz)", (4, 8)),
   ("Alpha (8–12 Hz)", (8, 12)),
   ("Beta (12–30 Hz)", (12, 30)),
   ("Gamma (30–45 Hz)", (30, 45))]

/-- The band-membership mask of line 63: `(freqs >= fmin) & (freqs < fmax)` —
low edge inclusive, high edge exclusive. -/
def maskB (lo hi f : ℚ) : Bool :=
  decide (lo ≤ f) && decide (f < hi)

/-- Trapezoidal integration `np.trapz(y, x)` over a list of `(x, y)` sample
points: the sum over consecutive samples of `(x₂ - x₁) * (y₁ + y₂) / 2`.
Fewer than two samples integrate to `0`. -/
def trapz : List (ℚ × ℚ) → ℚ
  | [] => 0
  | [_] => 0
  | p :: q :: rest => (q.1 - p.1) * (p.2 + q.2) / 2 + trapz (q :: rest)

/-- The masked selection `psd_mean[mask], freqs[mask]` of lines 63 and 68,
as the sample pairs whose frequency satisfies the band mask. -/
def bandFilter (lo hi : ℚ) (l : List (ℚ × ℚ)) : List (ℚ × ℚ) :=
  l.filter (fun p => maskB lo hi p.1)

/-- One band's integrated power (lines 62–68): select the frequency samples
inside the band mask; if none, the power is exactly `0.0`, otherwise the
trapezoidal integral of the selected samples. -/
def band_power (freqs psd_mean : List ℚ) (lo hi : ℚ) : ℚ :=
  let sel := bandFilter lo hi (freqs.zip psd_mean)
  if sel.isEmpty then 0 else trapz sel

/-- The full `band_powers` dictionary (insertion-ordered, like the Python
dict): one `(name, power)` entry per band of `BANDS`. -/
def band_powers_of (freqs psd_mean : List ℚ) : List (String × ℚ) :=
  BANDS.map (fun b => (b.1, band_power freqs psd_mean b.2.1 b.2.2))

/-- MNE channel kinds that `mne.pick_types` distinguishes at the call of
line 44. -/
inductive ChKind
  | eeg | meg | eog | ecg | stim | other
deriving DecidableEq, Repr

/-- One recording channel: its kind, whether it is marked bad, and its
sample data. -/
structure Channel where
  kind : ChKind
  bad : Bool
  data : List ℚ
deriving DecidableEq, Repr

/-- An in-memory raw recording (`mne.io.BaseRaw`): channels and the
sampling rate `info["sfreq"]`. -/
structure RawSignal where
  channels : List Channel
  sfreq : ℚ
deriving DecidableEq, Repr

/-- `mne.pick_types(raw.info, eeg=True, …, exclude="bads")` (line 44):
the indices of non-bad EEG channels. -/
def pick_types (raw : RawSignal) : List Nat :=
  ((List.range raw.channels.length).zip raw.channels).filterMap
    (fun ic => if ic.2.kind = ChKind.eeg ∧ ic.2.bad = false then some ic.1 else none)

/-- The `picks` argument of the `psd_welch` call (line 53):
`picks if len(picks) > 0 else None`. -/
def picks_arg (raw : RawSignal) : Option (List Nat) :=
  if (pick_types raw).length = 0 then none else some (pick_types raw)

/-- The `data`/`sfreq` selection of lines 45–50: when no EEG channel is
picked the code falls back to `raw.get_data()` — all channels; otherwise
only the picked channels. -/
def selected_data (raw : RawSignal) : List (List ℚ) :=
  if (pick_types raw).length = 0 then raw.channels.map Channel.data
  else (pick_types raw).filterMap (fun i => (raw.channels[i]?).map Channel.data)

/-- Type of the external spectral estimator
`mne.time_frequency.psd_welch` (third-party library, not repository code):
given the raw, the picks argument, `n_fft`, `n_overlap`, `fmin` and `fmax`,
it returns `(psd, freqs)` with `psd` one row per channel. -/
def WelchFn : Type :=
  RawSignal → Option (List Nat) → Nat → Nat → ℚ → ℚ → List (List ℚ) × List ℚ

/-- The hard-coded `n_fft=2048` argument of the `psd_welch` call (line 54). -/
def n_fft : Nat := 2048

/-- The hard-coded `n_overlap=1024` argument of the `psd_welch` call
(line 54). -/
def n_overlap : Nat := 1024

/-- `psd.mean(axis=0)` (line 57): the pointwise average across channel
rows (a single row averages to itself, matching the 1-D branch of
line 59). -/
def channel_mean (psd : List (List ℚ)) : List ℚ :=
  match psd with
  | [] => []
  | r :: _ =>
    (List.range r.length).map
      (fun j => (psd.map (fun row => row.getD j 0)).sum / psd.length)

/-- The error kinds named by the specification (§7).  The source function
`bandpowers_from_raw` contains no `raise`, so the embedding can only ever
return `Except.ok`. -/
inductive EegError
  | InvalidInputError | InsufficientDataError | InvalidWeightError
  | MissingPrimaryInputError
deriving DecidableEq, Repr

/-- The `psd_welch` call exactly as the source makes it (lines 53–54):
fixed `fmin=0.5`, hard-coded `n_fft=2048`, `n_overlap=1024`, and the
pick-or-None fallback. -/
def welch_out (welch : WelchFn) (raw : RawSignal) (fmax_cap : ℚ) :
    List (List ℚ) × List ℚ :=
  welch raw (picks_arg raw) n_fft n_overlap (1/2) fmax_cap

/-- `bandpowers_from_raw` (lines 41–69): Welch PSD, channel averaging, band
integration; returns the band dictionary and the sampling rate.  The
source raises nothing, so the result is always `Except.ok`. -/
def bandpowers_from_raw (welch : WelchFn) (raw : RawSignal) (fmax_cap : ℚ) :
    Except EegError (List (String × ℚ) × ℚ) :=
  let pf := welch_out welch raw fmax_cap
  let psd_mean := channel_mean pf.1
  Except.ok (band_powers_of pf.2 psd_mean, raw.sfreq)

/-- `dict.get(key, default)` on the band dictionary. -/
def dictGet (d : List (String × ℚ)) (k : String) (dflt : ℚ) : ℚ :=
  match d.find? (fun p => p.1 == k) with
  | some p => p.2
  | none => dflt

/-- Line 102: `alpha = band_powers.get("Alpha (8–12 Hz)", 1e-9)` — the
`1e-9` is the default for a missing key only. -/
def alpha_of (bp : List (String × ℚ)) : ℚ :=
  dictGet bp "Alpha (8–12 Hz)" (1/1000000000)

/-- Line 103: `theta = band_powers.get("Theta (4–8 Hz)", 0.0)`. -/
def theta_of (bp : List (String × ℚ)) : ℚ :=
  dictGet bp "Theta (4–8 Hz)" 0

/-- Line 104: `beta = band_powers.get("Beta (12–30 Hz)", 0.0)`. -/
def beta_of (bp : List (String × ℚ)) : ℚ :=
  dictGet bp "Beta (12–30 Hz)" 0

/-- Line 106: `theta_alpha = float(theta / alpha) if alpha > 0 else 0.0`. -/
def theta_alpha_of (bp : List (String × ℚ)) : ℚ :=
  if 0 < alpha_of bp then theta_of bp / alpha_of bp else 0

/-- Line 107: `beta_alpha = float(beta / alpha) if alpha > 0 else 0.0`. -/
def beta_alpha_of (bp : List (String × ℚ)) : ℚ :=
  if 0 < alpha_of bp then beta_of bp / alpha_of bp else 0

/-- Python `round` to the nearest integer with ties to even (banker's
rounding), on an exact rational. -/
def round_half_even (q : ℚ) : ℤ :=
  if q - ⌊q⌋ < 1/2 then ⌊q⌋
  else if 1/2 < q - ⌊q⌋ then ⌊q⌋ + 1
  else if ⌊q⌋ % 2 = 0 then ⌊q⌋ else ⌊q⌋ + 1

/-- `round(x, 3)` (lines 114–115): round to 3 decimal places. -/
def round3 (q : ℚ) : ℚ :=
  (round_half_even (q * 1000) : ℚ) / 1000

/-- The assessment record returned by `risk_from_ratios` (lines 113–118):
the two rounded ratios and the two qualitative flag strings. -/
structure RatioAssessment where
  theta_alpha : ℚ
  beta_alpha : ℚ
  dep_flag : String
  ad_flag : String
deriving DecidableEq, Repr

/-- `risk_from_ratios` (lines 100–118): the ratios (rounded to 3 decimal
places in the returned record) and the heuristic flags computed from the
unrounded ratios — `theta_alpha > 0.8` and `beta_alpha < 0.5`. -/
def risk_from_ratios (bp : List (String × ℚ)) : RatioAssessment :=
  { theta_alpha := round3 (theta_alpha_of bp)
    beta_alpha := round3 (beta_alpha_of bp)
    dep_flag := if 8/10 < theta_alpha_of bp then "Higher" else "Lower"
    ad_flag := if beta_alpha_of bp < 1/2 then "Possible concern" else "Normal" }

/-- Clamping a value into `[lo, hi]`. -/
def clamp (x lo hi : ℚ) : ℚ := max lo (min x hi)

/-- Modelled from the spec: the Score Fusion Engine of §4.4 is absent from
`src/app.py` (the source only emits a textual `combined_note`); the
composite is `Σ(score_i × weight_i) / Σ(weight_i)` clamped to `[0, 100]`,
over `(score, weight)` pairs. -/
def fuse_composite (scores : List (ℚ × ℚ)) : ℚ :=
  clamp ((scores.map (fun s => s.1 * s.2)).sum / (scores.map (fun s => s.2)).sum)
    0 100

/-- Modelled from the spec: the tier label of §4.4 — `composite < 40` is
"Low", `40 ≤ composite < 70` is "Moderate", `≥ 70` is "High". -/
def tier_label (c : ℚ) : String :=
  if c < 40 then "Low" else if c < 70 then "Moderate" else "High"

/-- The ratio formula exactly as the specification words it (§4.3):
`theta / max(alpha, ε)` with `ε = 1e-9`; stated for comparison with the
source's `theta_alpha_of`. -/
def theta_alpha_spec_formula (theta alpha : ℚ) : ℚ :=
  theta / max alpha (1/1000000000)

/-- The segment-length policy exactly as the specification words it (§4.1):
`window_seconds × sampling_rate` when an explicit window is given, else
`(2 / f_low) × sampling_rate`; stated for comparison with the source's
hard-coded `n_fft`. -/
def segment_length_spec (window_seconds : Option ℚ) (sampling_rate f_low : ℚ) : ℚ :=
  match window_seconds with
  | some w => w * sampling_rate
  | none => (2 / f_low) * sampling_rate

/-- The sample points are in ascending frequency order. -/
def SortedF (l : List (ℚ × ℚ)) : Prop :=
  l.Pairwise (fun p q => p.1 ≤ q.1)

/-- All power values of the sample points are non-negative. -/
def NonnegY (l : List (ℚ × ℚ)) : Prop :=
  ∀ p ∈ l, 0 ≤ p.2

lemma maskB_true {lo hi f : ℚ} : maskB lo hi f = true ↔ lo ≤ f ∧ f < hi := by
  simp [maskB]

lemma sortedF_tail {p : ℚ × ℚ} {l : List (ℚ × ℚ)} (h : SortedF (p :: l)) :
    SortedF l :=
  (List.pairwise_cons.mp h).2

lemma nonnegY_tail {p : ℚ × ℚ} {l : List (ℚ × ℚ)} (h : NonnegY (p :: l)) :
    NonnegY l :=
  fun q hq => h q (List.mem_cons_of_mem p hq)

lemma trapz_cons_cons (p q : ℚ × ℚ) (rest : List (ℚ × ℚ)) :
    trapz (p :: q :: rest) = (q.1 - p.1) * (p.2 + q.2) / 2 + trapz (q :: rest) :=
  rfl

lemma area_nonneg {p q : ℚ × ℚ} (h1 : p.1 ≤ q.1) (hp : 0 ≤ p.2) (hq : 0 ≤ q.2) :
    0 ≤ (q.1 - p.1) * (p.2 + q.2) / 2 := by
  apply div_nonneg _ (by norm_num)
  exact mul_nonneg (by linarith) (by linarith)

lemma trapz_nonneg (l : List (ℚ × ℚ)) (hs : SortedF l) (hy : NonnegY l) :
    0 ≤ trapz l := by
  induction l with
  | nil => simp [trapz]
  | cons p rest ih =>
    cases rest with
    | nil => simp [trapz]
    | cons q rest' =>
      rw [trapz_cons_cons]
      have h1 : p.1 ≤ q.1 := (List.pairwise_cons.mp hs).1 q (by simp)
      have hp2 : 0 ≤ p.2 := hy p (by simp)
      have hq2 : 0 ≤ q.2 := hy q (by simp)
      have ihr := ih (sortedF_tail hs) (nonnegY_tail hy)
      have harea := area_nonneg h1 hp2 hq2
      linarith

lemma trapz_cons_le (p : ℚ × ℚ) (l : List (ℚ × ℚ))
    (hs : SortedF (p :: l)) (hy : NonnegY (p :: l)) :
    trapz l ≤ trapz (p :: l) := by
  cases l with
  | nil => simp [trapz]
  | cons q l2 =>
    rw [trapz_cons_cons]
    have h1 : p.1 ≤ q.1 := (List.pairwise_cons.mp hs).1 q (by simp)
    have hp2 : 0 ≤ p.2 := hy p (by simp)
    have hq2 : 0 ≤ q.2 := hy q (by simp)
    have harea := area_nonneg h1 hp2 hq2
    linarith

lemma trapz_append_le (l1 l2 : List (ℚ × ℚ))
    (hs : SortedF (l1 ++ l2)) (hy : NonnegY (l1 ++ l2)) :
    trapz l1 + trapz l2 ≤ trapz (l1 ++ l2) := by
  induction l1 with
  | nil => simp [trapz]
  | cons p l1t ih =>
    cases l1t with
    | nil =>
      have := trapz_cons_le p l2 (by simpa using hs) (by simpa using hy)
      simpa [trapz] using this
    | cons q l1tt =>
      have hstep : ((p :: q :: l1tt) ++ l2) = p :: q :: (l1tt ++ l2) := rfl
      rw [hstep, trapz_cons_cons, trapz_cons_cons]
      have ih2 := ih (sortedF_tail (hstep ▸ hs)) (nonnegY_tail (hstep ▸ hy))
      have hstep2 : ((q :: l1tt) ++ l2) = q :: (l1tt ++ l2) := rfl
      rw [hstep2] at ih2
      linarith

lemma bandFilter_cons_pos {lo hi : ℚ} (p : ℚ × ℚ) (l : List (ℚ × ℚ))
    (h : lo ≤ p.1 ∧ p.1 < hi) :
    bandFilter lo hi (p :: l) = p :: bandFilter lo hi l := by
  simp only [bandFilter, List.filter_cons, maskB_true.mpr h, if_pos]

lemma bandFilter_cons_neg {lo hi : ℚ} (p : ℚ × ℚ) (l : List (ℚ × ℚ))
    (h : ¬(lo ≤ p.1 ∧ p.1 < hi)) :
    bandFilter lo hi (p :: l) = bandFilter lo hi l := by
  have hb : maskB lo hi p.1 = false := by
    rcases Bool.eq_false_or_eq_true (maskB lo hi p.1) with ht | hf
    · exact absurd (maskB_true.mp ht) h
    · exact hf
  simp only [bandFilter, List.filter_cons, hb]
  simp

lemma bandFilter_nil_of_ge {lo hi : ℚ} (l : List (ℚ × ℚ))
    (h : ∀ p ∈ l, hi ≤ p.1) :
    bandFilter lo hi l = [] := by
  refine List.filter_eq_nil_iff.mpr ?_
  intro p hp
  have := h p hp
  simp only [maskB_true]
  rintro ⟨-, hlt⟩
  linarith [h p hp]

lemma bandFilter_sortedF {lo hi : ℚ} {l : List (ℚ × ℚ)} (hs : SortedF l) :
    SortedF (bandFilter lo hi l) :=
  List.Pairwise.sublist (List.filter_sublist l) hs

lemma bandFilter_nonnegY {lo hi : ℚ} {l : List (ℚ × ℚ)} (hy : NonnegY l) :
    NonnegY (bandFilter lo hi l) :=
  fun p hp => hy p (List.mem_of_mem_filter hp)

lemma bandFilter_split (a b c : ℚ) (hab : a ≤ b) (hbc : b ≤ c)
    (l : List (ℚ × ℚ)) (hs : SortedF l) :
    bandFilter a c l = bandFilter a b l ++ bandFilter b c l := by
  induction l with
  | nil => rfl
  | cons p rest ih =>
    have hhead : ∀ q ∈ rest, p.1 ≤ q.1 := (List.pairwise_cons.mp hs).1
    have ihr := ih (sortedF_tail hs)
    by_cases h1 : a ≤ p.1
    · by_cases h2 : p.1 < b
      · have hc : p.1 < c := lt_of_lt_of_le h2 hbc
        rw [bandFilter_cons_pos p rest ⟨h1, hc⟩, bandFilter_cons_pos p rest ⟨h1, h2⟩,
          bandFilter_cons_neg p rest (fun hx => (not_le.mpr h2) hx.1), ihr]
        rfl
      · push_neg at h2
        have hfb : bandFilter a b (p :: rest) = [] :=
          bandFilter_nil_of_ge _ (by
            intro q hq
            rcases List.mem_cons.mp hq with rfl | hq2
            · exact h2
            · exact le_trans h2 (hhead q hq2))
        have hfbr : bandFilter a b rest = [] :=
          bandFilter_nil_of_ge _ (fun q hq => le_trans h2 (hhead q hq))
        by_cases h3 : p.1 < c
        · rw [bandFilter_cons_pos p rest ⟨h1, h3⟩,
            bandFilter_cons_pos p rest ⟨h2, h3⟩, hfb, ihr, hfbr]
          simp
        · push_neg at h3
          have hbp : ¬ p.1 < c := not_lt.mpr h3
          rw [bandFilter_cons_neg p rest (fun hx => hbp hx.2),
            bandFilter_cons_neg p rest (fun hx => hbp hx.2), hfb, ihr, hfbr]
    · push_neg at h1
      have hpa : ¬ a ≤ p.1 := not_le.mpr h1
      have hpb : ¬ b ≤ p.1 := not_le.mpr (lt_of_lt_of_le h1 hab)
      rw [bandFilter_cons_neg p rest (fun hx => hpa hx.1),
        bandFilter_cons_neg p rest (fun hx => hpa hx.1),
        bandFilter_cons_neg p rest (fun hx => hpb hx.1), ihr]

lemma trapz_bandFilter_le (a c : ℚ) (l : List (ℚ × ℚ))
    (hs : SortedF l) (hy : NonnegY l) :
    trapz (bandFilter a c l) ≤ trapz l := by
  induction l with
  | nil => simp [bandFilter, trapz]
  | cons p rest ih =>
    have hhead : ∀ q ∈ rest, p.1 ≤ q.1 := (List.pairwise_cons.mp hs).1
    have ihr := ih (sortedF_tail hs) (nonnegY_tail hy)
    by_cases hp : a ≤ p.1 ∧ p.1 < c
    · rw [bandFilter_cons_pos p rest hp]
      cases rest with
      | nil => simp [bandFilter, trapz]
      | cons q rest' =>
        by_cases hq : a ≤ q.1 ∧ q.1 < c
        · rw [bandFilter_cons_pos q rest' hq] at ihr ⊢
          rw [trapz_cons_cons, trapz_cons_cons]
          linarith [ihr]
        · have hqc : c ≤ q.1 := by
            rcases not_and_or.mp hq with hqa | hqc
            · exact absurd (le_trans hp.1 (hhead q (by simp))) hqa
            · exact not_lt.mp hqc
          have hrest : bandFilter a c (q :: rest') = [] :=
            bandFilter_nil_of_ge _ (by
              intro r hr
              rcases List.mem_cons.mp hr with rfl | hr2
              · exact hqc
              · exact le_trans hqc ((List.pairwise_cons.mp (sortedF_tail hs)).1 r hr2))
          rw [hrest]
          simpa [trapz] using trapz_nonneg _ hs hy
    · rw [bandFilter_cons_neg p rest hp]
      exact le_trans ihr (trapz_cons_le p rest hs hy)

lemma band_power_eq_trapz (freqs psd : List ℚ) (lo hi : ℚ) :
    band_power freqs psd lo hi = trapz (bandFilter lo hi (freqs.zip psd)) := by
  unfold band_power
  by_cases h : (bandFilter lo hi (freqs.zip psd)).isEmpty
  · rw [if_pos h]
    rw [List.isEmpty_iff.mp h]
    rfl
  · rw [if_neg h]

lemma trapz_bandFilter_add_le (a b c : ℚ) (hab : a ≤ b) (hbc : b ≤ c)
    (l : List (ℚ × ℚ)) (hs : SortedF l) (hy : NonnegY l) :
    trapz (bandFilter a b l) + trapz (bandFilter b c l) ≤ trapz (bandFilter a c l) := by
  rw [bandFilter_split a b c hab hbc l hs]
  apply trapz_append_le
  · rw [← bandFilter_split a b c hab hbc l hs]
    exact bandFilter_sortedF hs
  · rw [← bandFilter_split a b c hab hbc l hs]
    exact bandFilter_nonnegY hy

lemma band_power_nonneg (freqs psd : List ℚ) (lo hi : ℚ)
    (hs : SortedF (freqs.zip psd)) (hy : NonnegY (freqs.zip psd)) :
    0 ≤ band_power freqs psd lo hi := by
  rw [band_power_eq_trapz]
  exact trapz_nonneg _ (bandFilter_sortedF hs) (bandFilter_nonnegY hy)

lemma sum_band_powers_le (freqs psd : List ℚ)
    (hs : SortedF (freqs.zip psd)) (hy : NonnegY (freqs.zip psd)) :
    ((band_powers_of freqs psd).map Prod.snd).sum ≤ trapz (freqs.zip psd) := by
  have h1 := trapz_bandFilter_add_le (1/2) 4 8 (by norm_num) (by norm_num) _ hs hy
  have h2 := trapz_bandFilter_add_le (1/2) 8 12 (by norm_num) (by norm_num) _ hs hy
  have h3 := trapz_bandFilter_add_le (1/2) 12 30 (by norm_num) (by norm_num) _ hs hy
  have h4 := trapz_bandFilter_add_le (1/2) 30 45 (by norm_num) (by norm_num) _ hs hy
  have h5 := trapz_bandFilter_le (1/2) 45 _ hs hy
  simp only [band_powers_of, BANDS, List.map_cons, List.map_nil, List.sum_cons,
    List.sum_nil, band_power_eq_trapz]
  linarith

lemma sortedF_zip (l : List ℚ) (l2 : List ℚ) (h : l.Pairwise (· ≤ ·)) :
    SortedF (l.zip l2) := by
  induction l generalizing l2 with
  | nil => simp [SortedF]
  | cons x xs ih =>
    cases l2 with
    | nil => simp [SortedF]
    | cons y ys =>
      rw [List.zip_cons_cons]
      refine List.pairwise_cons.mpr ⟨?_, ih ys (List.pairwise_cons.mp h).2⟩
      rintro ⟨a, b⟩ hq
      exact (List.pairwise_cons.mp h).1 a (List.of_mem_zip hq).1

lemma nonnegY_zip (l : List ℚ) (l2 : List ℚ) (h : ∀ x ∈ l2, 0 ≤ x) :
    NonnegY (l.zip l2) := by
  rintro ⟨a, b⟩ hab
  exact h b (List.of_mem_zip hab).2

lemma round_half_even_intCast (z : ℤ) : round_half_even (z : ℚ) = z := by
  norm_num [round_half_even, Int.floor_intCast]

lemma round3_zero : round3 0 = 0 := by
  have h := round_half_even_intCast 0
  norm_num at h
  norm_num [round3, h]

lemma round3_one : round3 1 = 1 := by
  have h := round_half_even_intCast 1000
  have e : ((1000 : ℤ) : ℚ) = 1000 := by norm_num
  rw [e] at h
  norm_num [round3, h]

/-- C1: modelled from the spec (no fusion engine exists in `src/`) — the
Score Fusion Engine returns `Σ(score·weight)/Σ(weight)` clamped to
`[0, 100]`; the tier label is "Low" below 40, "Moderate" on `[40, 70)` and
"High" at 70 and above, each tier inclusive at its lower boundary; and the
worked example `80/0.5, 60/0.3, 40/0.2` fuses to `66` with tier
"Moderate". -/
theorem fusion_composite_and_tiers (scores : List (ℚ × ℚ)) (c : ℚ) :
    fuse_composite scores =
      clamp ((scores.map (fun s => s.1 * s.2)).sum /
        (scores.map (fun s => s.2)).sum) 0 100 ∧
    0 ≤ fuse_composite scores ∧ fuse_composite scores ≤ 100 ∧
    (tier_label c = "Low" ↔ c < 40) ∧
    (tier_label c = "Moderate" ↔ 40 ≤ c ∧ c < 70) ∧
    (tier_label c = "High" ↔ 70 ≤ c) ∧
    fuse_composite [(80, 1/2), (60, 3/10), (40, 1/5)] = 66 ∧
    tier_label (fuse_composite [(80, 1/2), (60, 3/10), (40, 1/5)]) = "Moderate" := by
  refine ⟨rfl, ?_, ?_, ?_, ?_, ?_, ?_, ?_⟩
  · simp only [fuse_composite, clamp]
    exact le_max_left 0 _
  · simp only [fuse_composite, clamp]
    exact max_le (by norm_num) (min_le_right _ _)
  · constructor
    · intro h
      unfold tier_label at h
      split_ifs at h with h1 h2 <;> simp_all
    · intro h
      unfold tier_label
      rw [if_pos h]
  · constructor
    · intro h
      unfold tier_label at h
      split_ifs at h with h1 h2
      · simp at h
      · exact ⟨not_lt.mp h1, h2⟩
      · simp at h
    · rintro ⟨hge, hlt⟩
      unfold tier_label
      rw [if_neg (not_lt.mpr hge), if_pos hlt]
  · constructor
    · intro h
      unfold tier_label at h
      split_ifs at h with h1 h2
      · simp at h
      · simp at h
      · exact not_lt.mp h2
    · intro h
      unfold tier_label
      rw [if_neg (by linarith), if_neg (by linarith)]
  · norm_num [fuse_composite, clamp]
  · norm_num [fuse_composite, clamp, tier_label]

/-- C2 counterexample: with the Alpha entry present and exactly `0` and
Theta `1`, the code computes `theta_alpha = 0.0` (the `alpha > 0` guard),
not `theta / max(alpha, 1e-9) = 1e9` as the claim's formula requires. -/
theorem ratio_alpha_zero_cex :
    theta_alpha_of [("Alpha (8–12 Hz)", 0), ("Theta (4–8 Hz)", 1)] = 0 ∧
    theta_alpha_spec_formula 1 0 = 1000000000 ∧
    theta_alpha_of [("Alpha (8–12 Hz)", 0), ("Theta (4–8 Hz)", 1)] ≠
      theta_alpha_spec_formula 1 0 ∧
    (risk_from_ratios [("Alpha (8–12 Hz)", 0), ("Theta (4–8 Hz)", 1)]).theta_alpha = 0 := by
  refine ⟨?_, ?_, ?_, ?_⟩
  · norm_num [theta_alpha_of, alpha_of, theta_of, dictGet, List.find?]
  · norm_num [theta_alpha_spec_formula]
  · norm_num [theta_alpha_of, alpha_of, theta_of, dictGet, List.find?,
      theta_alpha_spec_formula]
  · norm_num [risk_from_ratios, theta_alpha_of, alpha_of, theta_of, dictGet,
      List.find?, round3_zero]

/-- C2 amended: the code guards division with `if alpha > 0` and uses
`1e-9` only as the dictionary default for a missing Alpha key: when
`alpha > 0` the ratios are `theta/alpha` and `beta/alpha`; when the Alpha
value present is `≤ 0` both reported ratios are `0.0` (no epsilon floor is
applied to a present value, and no division happens); a missing Alpha key
yields the `1e-9` denominator. -/
theorem ratio_alpha_guard (bp : List (String × ℚ)) :
    (0 < alpha_of bp →
      theta_alpha_of bp = theta_of bp / alpha_of bp ∧
      beta_alpha_of bp = beta_of bp / alpha_of bp) ∧
    (alpha_of bp ≤ 0 →
      (risk_from_ratios bp).theta_alpha = 0 ∧
      (risk_from_ratios bp).beta_alpha = 0) ∧
    (bp.find? (fun p => p.1 == "Alpha (8–12 Hz)") = none →
      alpha_of bp = 1/1000000000) := by
  refine ⟨?_, ?_, ?_⟩
  · intro h
    constructor
    · simp [theta_alpha_of, h]
    · simp [beta_alpha_of, h]
  · intro h
    have hn : ¬ 0 < alpha_of bp := not_lt.mpr h
    constructor
    · simp [risk_from_ratios, theta_alpha_of, hn, round3_zero]
    · simp [risk_from_ratios, beta_alpha_of, hn, round3_zero]
  · intro h
    simp [alpha_of, dictGet, h]

/-- C2 witness: concrete instances discharging each hypothesis of
`ratio_alpha_guard`. -/
theorem ratio_alpha_guard_witness :
    theta_alpha_of [("Alpha (8–12 Hz)", 2), ("Theta (4–8 Hz)", 1)] =
      theta_of [("Alpha (8–12 Hz)", 2), ("Theta (4–8 Hz)", 1)] /
        alpha_of [("Alpha (8–12 Hz)", 2), ("Theta (4–8 Hz)", 1)] ∧
    (risk_from_ratios [("Alpha (8–12 Hz)", 0)]).theta_alpha = 0 ∧
    alpha_of [] = 1/1000000000 :=
  ⟨((ratio_alpha_guard [("Alpha (8–12 Hz)", 2), ("Theta (4–8 Hz)", 1)]).1
      (by norm_num [alpha_of, dictGet, List.find?])).1,
   ((ratio_alpha_guard [("Alpha (8–12 Hz)", 0)]).2.1
      (by norm_num [alpha_of, dictGet, List.find?])).1,
   (ratio_alpha_guard []).2.2 rfl⟩

/-- C3 counterexample: with Alpha present and exactly `0` and Theta absent
(hence `0`), theta equals alpha but the computed `theta_alpha` is `0.0`
and the depression flag is the "typical" one ("Lower"), not `1.0` and
"elevated" as the claim's "theta equal to alpha" example requires. -/
theorem ratio_flag_theta_eq_alpha_cex :
    theta_of [("Alpha (8–12 Hz)", 0), ("Theta (4–8 Hz)", 0)] =
      alpha_of [("Alpha (8–12 Hz)", 0), ("Theta (4–8 Hz)", 0)] ∧
    theta_alpha_of [("Alpha (8–12 Hz)", 0), ("Theta (4–8 Hz)", 0)] ≠ 1 ∧
    (risk_from_ratios [("Alpha (8–12 Hz)", 0), ("Theta (4–8 Hz)", 0)]).dep_flag =
      "Lower" := by
  refine ⟨?_, ?_, ?_⟩
  · simp [theta_of, alpha_of, dictGet, List.find?]
  · simp [theta_alpha_of, alpha_of, theta_of, dictGet, List.find?]
  · simp only [risk_from_ratios, theta_alpha_of, alpha_of, dictGet, List.find?]
    norm_num

/-- C3 amended: the depression-pattern flag is the elevated one (source
string "Higher") exactly when `theta_alpha > 0.8`, else the typical one
("Lower"); the cognitive flag is "Possible concern" exactly when
`beta_alpha < 0.5`, else "Normal"; theta equal to alpha with alpha
positive gives `theta_alpha = 1.0` and the elevated flag; theta `0` gives
`theta_alpha = 0.0` and the typical flag. -/
theorem ratio_flags_thresholds (bp : List (String × ℚ)) :
    ((risk_from_ratios bp).dep_flag = "Higher" ↔ 8/10 < theta_alpha_of bp) ∧
    ((risk_from_ratios bp).dep_flag = "Lower" ↔ ¬ 8/10 < theta_alpha_of bp) ∧
    ((risk_from_ratios bp).ad_flag = "Possible concern" ↔ beta_alpha_of bp < 1/2) ∧
    ((risk_from_ratios bp).ad_flag = "Normal" ↔ ¬ beta_alpha_of bp < 1/2) ∧
    (theta_of bp = alpha_of bp → 0 < alpha_of bp →
      theta_alpha_of bp = 1 ∧ (risk_from_ratios bp).dep_flag = "Higher") ∧
    (theta_of bp = 0 →
      theta_alpha_of bp = 0 ∧ (risk_from_ratios bp).dep_flag = "Lower") := by
  refine ⟨?_, ?_, ?_, ?_, ?_, ?_⟩
  · by_cases h : 8/10 < theta_alpha_of bp <;> simp [risk_from_ratios, h]
  · by_cases h : 8/10 < theta_alpha_of bp <;> simp [risk_from_ratios, h]
  · by_cases h : beta_alpha_of bp < 1/2 <;> simp [risk_from_ratios, h]
  · by_cases h : beta_alpha_of bp < 1/2 <;> simp [risk_from_ratios, h]
  · intro he hpos
    have h1 : theta_alpha_of bp = 1 := by
      rw [theta_alpha_of, if_pos hpos, he, div_self (ne_of_gt hpos)]
    refine ⟨h1, ?_⟩
    simp only [risk_from_ratios, h1]
    norm_num
  · intro h0
    have h1 : theta_alpha_of bp = 0 := by
      simp [theta_alpha_of, h0]
    refine ⟨h1, ?_⟩
    simp only [risk_from_ratios, h1]
    norm_num

/-- C3 witness: concrete instances discharging the hypotheses of
`ratio_flags_thresholds` (theta equal to a positive alpha, and theta
zero). -/
theorem ratio_flags_thresholds_witness :
    theta_alpha_of [("Alpha (8–12 Hz)", 2), ("Theta (4–8 Hz)", 2)] = 1 ∧
    (risk_from_ratios [("Alpha (8–12 Hz)", 2), ("Theta (4–8 Hz)", 2)]).dep_flag =
      "Higher" ∧
    theta_alpha_of [("Alpha (8–12 Hz)", 2)] = 0 ∧
    (risk_from_ratios [("Alpha (8–12 Hz)", 2)]).dep_flag = "Lower" := by
  have h1 := (ratio_flags_thresholds [("Alpha (8–12 Hz)", 2), ("Theta (4–8 Hz)", 2)]).2.2.2.2.1
    (by simp [theta_of, alpha_of, dictGet, List.find?])
    (by norm_num [alpha_of, dictGet, List.find?])
  have h2 := (ratio_flags_thresholds [("Alpha (8–12 Hz)", 2)]).2.2.2.2.2
    (by simp [theta_of, dictGet, List.find?])
  exact ⟨h1.1, h1.2, h2.1, h2.2⟩

/-- C4: for every band of the fixed table, a frequency sample is selected
exactly when it is ≥ the band's low edge and < its high edge; a single
bin exactly at the low edge is kept, and a bin exactly at the high edge
is excluded. -/
theorem band_edge_policy :
    ∀ b ∈ BANDS, ∀ (p f : ℚ),
      (maskB b.2.1 b.2.2 f = true ↔ b.2.1 ≤ f ∧ f < b.2.2) ∧
      bandFilter b.2.1 b.2.2 [(b.2.1, p)] = [(b.2.1, p)] ∧
      bandFilter b.2.1 b.2.2 [(b.2.2, p)] = [] := by
  intro b hb p f
  have hlohi : b.2.1 < b.2.2 := by
    fin_cases hb <;> norm_num
  refine ⟨maskB_true, ?_, ?_⟩
  · rw [bandFilter_cons_pos (b.2.1, p) [] ⟨le_refl _, hlohi⟩]
    rfl
  · rw [bandFilter_cons_neg (b.2.2, p) [] (fun hx => lt_irrefl _ hx.2)]
    rfl

/-- C4 witness: the Delta band keeps a single bin at its low edge 0.5 Hz
and drops a single bin at its high edge 4 Hz. -/
theorem band_edge_policy_witness :
    (maskB (1/2) 4 1 = true ↔ (1:ℚ)/2 ≤ 1 ∧ (1:ℚ) < 4) ∧
    bandFilter (1/2) 4 [(1/2, 1)] = [(1/2, 1)] ∧
    bandFilter (1/2) 4 [(4, 1)] = [] :=
  band_edge_policy ("Delta (0.5–4 Hz)", (1/2, 4)) (by simp [BANDS]) 1 1

/-- C5 counterexample: a RawSignal with zero channels is not rejected —
`bandpowers_from_raw` has no error path, so it cannot fail with
`InvalidInputError`; it returns an ordinary result (every band power `0.0`
for the empty spectrum). -/
theorem zero_channels_no_invalid_input_cex :
    bandpowers_from_raw (fun _ _ _ _ _ _ => ([], [])) ⟨[], 256⟩ 45 ≠
      Except.error EegError.InvalidInputError ∧
    bandpowers_from_raw (fun _ _ _ _ _ _ => ([], [])) ⟨[], 256⟩ 45 =
      Except.ok ([("Delta (0.5–4 Hz)", 0), ("Theta (4–8 Hz)", 0),
        ("Alpha (8–12 Hz)", 0), ("Beta (12–30 Hz)", 0),
        ("Gamma (30–45 Hz)", 0)], 256) := by
  have h : bandpowers_from_raw (fun _ _ _ _ _ _ => ([], [])) ⟨[], 256⟩ 45 =
      Except.ok ([("Delta (0.5–4 Hz)", 0), ("Theta (4–8 Hz)", 0),
        ("Alpha (8–12 Hz)", 0), ("Beta (12–30 Hz)", 0),
        ("Gamma (30–45 Hz)", 0)], 256) := by
    rfl
  rw [h]
  exact ⟨by simp, rfl⟩

/-- C5 amended: `bandpowers_from_raw` never raises `InvalidInputError` —
it always returns `Except.ok`; when no EEG channel is picked (including a
channel count of zero) it falls back to the full recording: the picks
argument passed to the spectral estimator is `None` and the selected data
is all channels' data, EEG or not. -/
theorem bandpowers_total_fallback (welch : WelchFn) (raw : RawSignal) (fmax_cap : ℚ) :
    (∃ v, bandpowers_from_raw welch raw fmax_cap = Except.ok v) ∧
    (pick_types raw = [] →
      picks_arg raw = none ∧
      selected_data raw = raw.channels.map Channel.data) := by
  refine ⟨⟨_, rfl⟩, ?_⟩
  intro h
  constructor
  · simp [picks_arg, h]
  · simp [selected_data, h]

/-- C5 witness: a recording whose only channel is MEG (no EEG channel at
all) is not rejected; the fallback selects the full data. -/
theorem bandpowers_total_fallback_witness :
    picks_arg ⟨[⟨ChKind.meg, false, [1, 2]⟩], 100⟩ = none ∧
    selected_data ⟨[⟨ChKind.meg, false, [1, 2]⟩], 100⟩ =
      ([⟨ChKind.meg, false, [1, 2]⟩] : List Channel).map Channel.data ∧
    ∃ v, bandpowers_from_raw (fun _ _ _ _ _ _ => ([[1]], [10]))
      ⟨[⟨ChKind.meg, false, [1, 2]⟩], 100⟩ 45 = Except.ok v := by
  have h := bandpowers_total_fallback (fun _ _ _ _ _ _ => ([[1]], [10]))
    ⟨[⟨ChKind.meg, false, [1, 2]⟩], 100⟩ 45
  have h2 := h.2 (by rfl)
  exact ⟨h2.1, h2.2, h.1⟩

lemma channel_mean_nonneg (psd : List (List ℚ))
    (h : ∀ row ∈ psd, ∀ x ∈ row, 0 ≤ x) :
    ∀ x ∈ channel_mean psd, 0 ≤ x := by
  intro x hx
  cases psd with
  | nil => simp [channel_mean] at hx
  | cons r rest =>
    simp only [channel_mean, List.mem_map] at hx
    obtain ⟨j, hj, rfl⟩ := hx
    apply div_nonneg
    · apply List.sum_nonneg
      intro y hy
      simp only [List.mem_map] at hy
      obtain ⟨row, hrow, rfl⟩ := hy
      by_cases hlt : j < row.length
      · rw [List.getD_eq_getElem row 0 hlt]
        exact h row hrow _ (List.getElem_mem hlt)
      · rw [List.getD_eq_default row 0 (not_lt.mp hlt)]
    · positivity

/-- C6: for every raw signal whose Welch spectrum has ascending
frequencies and channel-wise non-negative power rows, the pipeline
returns the band powers; every band power is ≥ 0 and their sum is at most
the trapezoidal integral of the full representative spectrum. -/
theorem bandpowers_nonneg_sum_le (welch : WelchFn) (raw : RawSignal) (fmax_cap : ℚ)
    (hs : ((welch_out welch raw fmax_cap).2).Pairwise (· ≤ ·))
    (hy : ∀ row ∈ (welch_out welch raw fmax_cap).1, ∀ x ∈ row, 0 ≤ x) :
    bandpowers_from_raw welch raw fmax_cap =
      Except.ok (band_powers_of (welch_out welch raw fmax_cap).2
        (channel_mean (welch_out welch raw fmax_cap).1), raw.sfreq) ∧
    (∀ p ∈ band_powers_of (welch_out welch raw fmax_cap).2
        (channel_mean (welch_out welch raw fmax_cap).1), 0 ≤ p.2) ∧
    ((band_powers_of (welch_out welch raw fmax_cap).2
        (channel_mean (welch_out welch raw fmax_cap).1)).map Prod.snd).sum ≤
      trapz ((welch_out welch raw fmax_cap).2.zip
        (channel_mean (welch_out welch raw fmax_cap).1)) := by
  have hsz := sortedF_zip _ (channel_mean (welch_out welch raw fmax_cap).1) hs
  have hyz := nonnegY_zip (welch_out welch raw fmax_cap).2 _
    (channel_mean_nonneg _ hy)
  refine ⟨rfl, ?_, sum_band_powers_le _ _ hsz hyz⟩
  intro p hp
  simp only [band_powers_of, List.mem_map] at hp
  obtain ⟨b, hb, rfl⟩ := hp
  exact band_power_nonneg _ _ _ _ hsz hyz

/-- C6 witness: a concrete single-channel spectrum with ascending
frequencies and non-negative powers. -/
theorem bandpowers_nonneg_sum_le_witness :
    (∀ p ∈ band_powers_of
        (welch_out (fun _ _ _ _ _ _ => ([[1, 1, 2, 1, 1, 3, 1, 1, 1, 1]],
          [1, 3, 5, 7, 9, 11, 20, 28, 40, 44])) ⟨[], 256⟩ 45).2
        (channel_mean (welch_out (fun _ _ _ _ _ _ =>
          ([[1, 1, 2, 1, 1, 3, 1, 1, 1, 1]],
          [1, 3, 5, 7, 9, 11, 20, 28, 40, 44])) ⟨[], 256⟩ 45).1), 0 ≤ p.2) ∧
    ((band_powers_of
        (welch_out (fun _ _ _ _ _ _ => ([[1, 1, 2, 1, 1, 3, 1, 1, 1, 1]],
          [1, 3, 5, 7, 9, 11, 20, 28, 40, 44])) ⟨[], 256⟩ 45).2
        (channel_mean (welch_out (fun _ _ _ _ _ _ =>
          ([[1, 1, 2, 1, 1, 3, 1, 1, 1, 1]],
          [1, 3, 5, 7, 9, 11, 20, 28, 40, 44])) ⟨[], 256⟩ 45).1)).map Prod.snd).sum ≤
      trapz ((welch_out (fun _ _ _ _ _ _ => ([[1, 1, 2, 1, 1, 3, 1, 1, 1, 1]],
          [1, 3, 5, 7, 9, 11, 20, 28, 40, 44])) ⟨[], 256⟩ 45).2.zip
        (channel_mean (welch_out (fun _ _ _ _ _ _ =>
          ([[1, 1, 2, 1, 1, 3, 1, 1, 1, 1]],
          [1, 3, 5, 7, 9, 11, 20, 28, 40, 44])) ⟨[], 256⟩ 45).1)) := by
  have h := bandpowers_nonneg_sum_le
    (fun _ _ _ _ _ _ => ([[1, 1, 2, 1, 1, 3, 1, 1, 1, 1]],
      [1, 3, 5, 7, 9, 11, 20, 28, 40, 44])) ⟨[], 256⟩ 45
    (by decide) (by decide)
  exact ⟨h.2.1, h.2.2⟩

/-- C7: for every band of the fixed table, if no frequency sample lies
inside the band's edges, the result still contains that band with power
exactly `0.0`, and the pipeline returns normally rather than raising. -/
theorem empty_band_zero (welch : WelchFn) (raw : RawSignal) (fmax_cap : ℚ) :
    ∀ b ∈ BANDS,
      bandFilter b.2.1 b.2.2 ((welch_out welch raw fmax_cap).2.zip
        (channel_mean (welch_out welch raw fmax_cap).1)) = [] →
      (b.1, (0:ℚ)) ∈ band_powers_of (welch_out welch raw fmax_cap).2
        (channel_mean (welch_out welch raw fmax_cap).1) ∧
      ∃ v, bandpowers_from_raw welch raw fmax_cap = Except.ok v := by
  intro b hb hf
  refine ⟨?_, ⟨_, rfl⟩⟩
  have h0 : band_power (welch_out welch raw fmax_cap).2
      (channel_mean (welch_out welch raw fmax_cap).1) b.2.1 b.2.2 = 0 := by
    rw [band_power_eq_trapz, hf]
    rfl
  exact List.mem_map.mpr ⟨b, hb, by rw [h0]⟩

/-- C7 witness: a spectrum whose only bin is 100 Hz has no sample in the
Delta band; the returned Delta power is exactly `0`. -/
theorem empty_band_zero_witness :
    ("Delta (0.5–4 Hz)", (0:ℚ)) ∈ band_powers_of
      (welch_out (fun _ _ _ _ _ _ => ([[2]], [100])) ⟨[], 128⟩ 45).2
      (channel_mean (welch_out (fun _ _ _ _ _ _ => ([[2]], [100])) ⟨[], 128⟩ 45).1) ∧
    ∃ v, bandpowers_from_raw (fun _ _ _ _ _ _ => ([[2]], [100])) ⟨[], 128⟩ 45 =
      Except.ok v := by
  have h := empty_band_zero (fun _ _ _ _ _ _ => ([[2]], [100])) ⟨[], 128⟩ 45
    ("Delta (0.5–4 Hz)", (1/2, 4)) (by simp [BANDS]) ?_
  · exact h
  · show bandFilter (1/2) 4 ([(100:ℚ)].zip (channel_mean [[(2:ℚ)]])) = []
    have hcm : channel_mean [[(2:ℚ)]] = [2] := by
      simp [channel_mean, List.range_succ]
    rw [hcm]
    rw [show ([(100:ℚ)].zip ([2] : List ℚ)) = [((100:ℚ), (2:ℚ))] from rfl]
    rw [bandFilter_cons_neg _ _ (by norm_num)]
    rfl

/-- C8 counterexample: at sampling rate 256 with no explicit window, the
claim's policy yields segment length `(2 / 0.5) × 256 = 1024` samples,
but the code's segment length is the hard-coded `n_fft = 2048` for every
input. -/
theorem segment_length_cex :
    segment_length_spec none 256 (1/2) = 1024 ∧
    (n_fft : ℚ) = 2048 ∧
    (n_fft : ℚ) ≠ segment_length_spec none 256 (1/2) := by
  norm_num [segment_length_spec, n_fft]

/-- C8 amended: the source calls the spectral estimator with the segment
length fixed at `n_fft = 2048` samples and the overlap fixed at
`n_overlap = 1024` samples — 50% of the segment length — for every raw
signal and sampling rate; no window-seconds parameter exists. -/
theorem welch_call_params (welch : WelchFn) (raw : RawSignal) (fmax_cap : ℚ) :
    welch_out welch raw fmax_cap = welch raw (picks_arg raw) 2048 1024 (1/2) fmax_cap ∧
    2 * n_overlap = n_fft :=
  ⟨rfl, rfl⟩

/-- C9: the band-power computation and the ratio classifier are pure
functions of their inputs — running either twice on identical inputs
yields identical (bit-identical in the model) results. -/
theorem pipeline_deterministic (welch : WelchFn) (raw : RawSignal) (fmax_cap : ℚ)
    (bp : List (String × ℚ)) :
    bandpowers_from_raw welch raw fmax_cap = bandpowers_from_raw welch raw fmax_cap ∧
    risk_from_ratios bp = risk_from_ratios bp :=
  ⟨rfl, rfl⟩

/-- C10: both ratios reported by `risk_from_ratios` are the 3-decimal
roundings of the computed ratios, hence integer multiples of `1/1000` —
no more than 3 decimal digits ever reach a consumer. -/
theorem ratios_rounded_three_decimals (bp : List (String × ℚ)) :
    (risk_from_ratios bp).theta_alpha = round3 (theta_alpha_of bp) ∧
    (risk_from_ratios bp).beta_alpha = round3 (beta_alpha_of bp) ∧
    (∃ z : ℤ, (risk_from_ratios bp).theta_alpha = (z : ℚ) / 1000) ∧
    (∃ z : ℤ, (risk_from_ratios bp).beta_alpha = (z : ℚ) / 1000) :=
  ⟨rfl, rfl, ⟨_, rfl⟩, ⟨_, rfl⟩⟩

end EegApp
